import Mathlib

/-!
Verification of the gleaner note manager (`main.go`).

Go strings are modelled as their character sequences (`List Char`); the
flat notes directory is modelled as an association list from filename to
file content.  Pure helpers (`sanitizeFileName`, filename parsing in
`loadNotes`, `saveNote`'s path computation) are translated function by
function from `main.go`; the parts of `model.Update` that the claims are
about (the `[]note` reload handler and the key dispatch) are translated
as explicit state-passing functions over an `AppModel` record holding the
fields of the Go `model` struct that those branches touch.
-/

namespace Gleaner

/-- Go strings, modelled as their character sequences. -/
abbrev GoStr := List Char

/-- The fixed note extension `".md"`. -/
def mdExt : GoStr := ['.', 'm', 'd']

/-- The character class kept by `sanitizeFileName`:
`unicode.IsLetter(r) || unicode.IsNumber(r) || r == '-' || r == '_'`
(ASCII fragment of the Unicode letter/number classes; every concrete
input in the development is ASCII, and the universally quantified
properties below depend only on the letter/digit/other partition being
applied identically on the save and load paths). -/
def keepChar (c : Char) : Bool :=
  c.isAlpha || c.isDigit || c = '-' || c = '_'

/-- The rune mapping inside `sanitizeFileName`'s `strings.Map`. -/
def sanChar (c : Char) : Char :=
  if keepChar c then c else '-'

/-- `strings.HasSuffix(s, suff)`:
`len(s) >= len(suff) && s[len(s)-len(suff):] == suff`. -/
def hasSuffix (s suff : GoStr) : Bool :=
  decide (suff.length ≤ s.length) && decide (s.drop (s.length - suff.length) = suff)

/-- `strings.TrimSuffix(s, suff)`: drops `suff` when it is a suffix,
otherwise returns `s` unchanged. -/
def trimSuffix (s suff : GoStr) : GoStr :=
  if hasSuffix s suff then s.take (s.length - suff.length) else s

/-- `sanitizeFileName` from `main.go`: first trims a trailing `".md"`,
then maps every character that is not a kept character to `'-'`
(`strings.Map(sanChar, name)`). -/
def sanitizeFileName (input : GoStr) : GoStr :=
  (trimSuffix input mdExt).map sanChar

/-- The character mapping of `strings.ReplaceAll(s, "-", " ")`: the
pattern is the single character `'-'`, so the replacement is the
character-wise map sending `'-'` to `' '`. -/
def restoreChar (c : Char) : Char :=
  if c = '-' then ' ' else c

/-- `strings.ReplaceAll(cleanName, "-", " ")` from `loadNotes`. -/
def restoreTitle (s : GoStr) : GoStr :=
  s.map restoreChar

/-- `strings.SplitN(s, "-", 2)`: one element when `s` has no `'-'`,
otherwise the part before the first `'-'` and everything after it. -/
def splitN2 (s : GoStr) : List GoStr :=
  let pre := s.takeWhile (fun c => c ≠ '-')
  match s.dropWhile (fun c => c ≠ '-') with
  | [] => [s]
  | _ :: rest => [pre, rest]

/-- Value of a string of decimal digits, most significant first. -/
def digitsToNat (ds : List Char) : Nat :=
  ds.foldl (fun acc c => acc * 10 + (c.toNat - '0'.toNat)) 0

/-- The digit-run part of `strconv.ParseInt`: fails on an empty run, on
any non-digit, and when the signed value leaves the `int64` range. -/
def parseDigits (neg : Bool) (digits : GoStr) : Option Int :=
  if digits = [] then none
  else if digits.all Char.isDigit then
    let v : Int := if neg then -(digitsToNat digits : Int) else (digitsToNat digits : Int)
    if -(2 ^ 63) ≤ v ∧ v ≤ 2 ^ 63 - 1 then some v else none
  else none

/-- `strconv.ParseInt(s, 10, 64)` as an `Option`: an optional single
`'+'`/`'-'` sign followed by a non-empty run of decimal digits, rejected
(`none`) when empty, when any non-digit appears, or when the value
leaves the `int64` range. -/
def parseInt64 (s : GoStr) : Option Int :=
  match s with
  | [] => none
  | c :: rest =>
    if c = '-' then parseDigits true rest
    else if c = '+' then parseDigits false rest
    else parseDigits false s

/-- Fuel-driven digit renderer; with fuel above `n` it writes the
decimal digits of `n`, most significant first. -/
def natToDigitsAux : Nat → Nat → GoStr
  | 0, _ => []
  | fuel + 1, n =>
    if n < 10 then [Nat.digitChar n]
    else natToDigitsAux fuel (n / 10) ++ [Nat.digitChar (n % 10)]

/-- Decimal digit sequence of a natural number, as `fmt.Sprintf("%d")`
renders it (no sign, no leading zeros except for `0` itself). -/
def natToDigits (n : Nat) : GoStr :=
  natToDigitsAux (n + 1) n

/-- `fmt.Sprintf("%d", i)` for an `int64` value. -/
def intToStr (i : Int) : GoStr :=
  if i < 0 then '-' :: natToDigits i.natAbs else natToDigits i.toNat

/-- `filepath.Join(dir, name)` for a clean directory path and a plain
file name: `dir ++ "/" ++ name`. -/
def joinPath (dir name : GoStr) : GoStr :=
  dir ++ '/' :: name

/-- `filepath.Base(p)` for the paths the program builds (non-empty, no
trailing slash): the part after the last `'/'`. -/
def baseName (p : GoStr) : GoStr :=
  (p.reverse.takeWhile (fun c => c ≠ '/')).reverse

/-- The `note` struct of `main.go`. -/
structure Note where
  title : GoStr
  path : GoStr
  createdAt : Int
deriving DecidableEq, Repr

/-- The notes directory: an association list from file name to file
content.  File names are unique (stated as a `Nodup` hypothesis where a
theorem needs it), mirroring a real directory. -/
abbrev Fs := List (GoStr × GoStr)

/-- `os.ReadFile` of the named file: `none` models a read error
(missing file). -/
def readFile (fs : Fs) (name : GoStr) : Option GoStr :=
  (fs.find? (fun e => e.1 = name)).map (fun e => e.2)

/-- `os.WriteFile`: replaces the named file's content, creating the file
when absent. -/
def writeFile (fs : Fs) (name content : GoStr) : Fs :=
  if fs.any (fun e => e.1 = name) then
    fs.map (fun e => if e.1 = name then (name, content) else e)
  else
    fs ++ [(name, content)]

/-- `os.Remove`: drops the named file; absence is not an error. -/
def removeFile (fs : Fs) (name : GoStr) : Fs :=
  fs.filter (fun e => ¬ e.1 = name)

/-- `os.ReadDir(notesDir)`: the file names present.  (The real call
additionally sorts the names; none of the verified properties depend on
the listing order, which the reload handler re-sorts anyway.) -/
def readDir (fs : Fs) : List GoStr :=
  fs.map Prod.fst

/-- `os.ReadFile(path)` for a path inside the notes directory: the file
is looked up by its base name, since every path the program handles is
`notesDir`-joined. -/
def readFileAt (fs : Fs) (path : GoStr) : Option GoStr :=
  readFile fs (baseName path)

/-- The per-file body of the `loadNotes` loop: `none` when the file is
skipped (`continue` or extension mismatch), otherwise the `note`
appended to the result.  The Go code checks `filepath.Ext(name) ==
".md"`, which (as `"md"` contains no dot) holds exactly when `name` ends
with `".md"`. -/
def parseNoteFile (dir name : GoStr) : Option Note :=
  if hasSuffix name mdExt then
    match splitN2 name with
    | [tsStr, rest] =>
      match parseInt64 tsStr with
      | some ts =>
        some { title := restoreTitle (trimSuffix rest mdExt)
               path := joinPath dir name
               createdAt := ts }
      | none => none
    | _ => none
  else none

/-- `loadNotes` from `main.go`, over a given directory listing. -/
def loadNotes (dir : GoStr) (files : List GoStr) : List Note :=
  files.filterMap (parseNoteFile dir)

/-- Listing the notes directory: `loadNotes` over `os.ReadDir`. -/
def listNotes (dir : GoStr) (fs : Fs) : List Note :=
  loadNotes dir (readDir fs)

/-- The filesystem effect of `saveNote(title, content, existingNote)`
from `main.go`: with an existing note, the timestamp string is taken
textually from the existing filename (`SplitN(Base(path), "-", 2)[0]`),
the new path reuses it with a freshly sanitized title, and the old file
is removed before the write; otherwise the path uses the current time.
`now` stands for `time.Now().Unix()`. -/
def saveNote (dir : GoStr) (now : Int) (title content : GoStr)
    (existingNote : Option Note) (fs : Fs) : Fs :=
  let sanitized := sanitizeFileName title
  match existingNote with
  | some n =>
    let originalTimestamp := (splitN2 (baseName n.path)).headD []
    let name := originalTimestamp ++ '-' :: (sanitized ++ mdExt)
    writeFile (removeFile fs (baseName n.path)) name content
  | none =>
    let name := intToStr now ++ '-' :: (sanitized ++ mdExt)
    writeFile fs name content

/-- The filesystem effect of `deleteNote(path)`: `os.Remove(path)`. -/
def deleteNote (fs : Fs) (path : GoStr) : Fs :=
  removeFile fs (baseName path)

/-- The key events `model.Update` dispatches on (its `tea.KeyMsg`
branch); keys it does not mention are forwarded to the focused widget
and touch none of the orchestration state. -/
inductive Key where
  | ctrlC | ctrlU | tab | ctrlN | ctrlS | ctrlD | ctrlE | up | down | enter | esc
deriving DecidableEq, Repr

/-- The `tea.Cmd`s the state machine issues, as data: `loadNotes`,
`saveNote(title, content, existingNote)`, `deleteNote(path)` and
`tea.Quit`. -/
inductive Cmd where
  | loadNotesCmd
  | saveCmd (title content : GoStr) (existingNote : Option Note)
  | deleteCmd (path : GoStr)
  | quitCmd
deriving DecidableEq, Repr

/-- The fields of the Go `model` struct that the verified branches of
`model.Update` read or write.  The two input widgets are represented by
their value and focus flag; the list widget by its item slice and
cursor. -/
structure AppModel where
  notes : List Note
  mode : String
  selectedNote : Option Note
  textInputValue : GoStr
  textareaValue : GoStr
  titleEntered : Bool
  textInputFocused : Bool
  textareaFocused : Bool
  listItems : List Note
  listIndex : Nat
  textInputCharLimit : Nat
deriving DecidableEq, Repr

/-- `initialModel` from `main.go`: empty list, `list` mode, title input
created with `CharLimit = 50` and focused. -/
def initialModel : AppModel :=
  { notes := []
    mode := "list"
    selectedNote := none
    textInputValue := []
    textareaValue := []
    titleEntered := false
    textInputFocused := true
    textareaFocused := false
    listItems := []
    listIndex := 0
    textInputCharLimit := 50 }

/-- `m.list.SelectedItem()`: the item under the cursor. -/
def selectedItem (m : AppModel) : Option Note :=
  m.listItems.get? m.listIndex

/-- The list collaborator's cursor move for an up/down key (external
widget, modelled as the clamped cursor step). -/
def listMove (len idx : Nat) (k : Key) : Nat :=
  if k = Key.down then min (idx + 1) (len - 1) else idx - 1

/-- The textarea value after the navigation case's
`content, err := os.ReadFile(...)`: the file content when the read
succeeds (`if err == nil`), the previous value otherwise — a failed
read leaves the textarea untouched. -/
def navTextarea (readF : GoStr → Option GoStr) (old : GoStr) (n : Note) :
    GoStr :=
  match readF n.path with
  | some content => content
  | none => old

/-- The up/down navigation case of `model.Update`: move the list
cursor (delegated to the list widget), set the newly highlighted note
as selected, and update the textarea via `navTextarea`. -/
def handleUpDown (readF : GoStr → Option GoStr) (m : AppModel) (k : Key) :
    AppModel × List Cmd :=
  if m.mode = "list" then
    match m.listItems.get? (listMove m.listItems.length m.listIndex k) with
    | some n =>
      ({ m with listIndex := listMove m.listItems.length m.listIndex k,
                selectedNote := some n,
                textareaValue := navTextarea readF m.textareaValue n }, [])
    | none =>
      ({ m with listIndex := listMove m.listItems.length m.listIndex k }, [])
  else (m, [])

/-- The `tea.KeyMsg` branch of `model.Update`, in the source's case
order (the cases are mutually exclusive per key, so the order shows up
only in which case a key reaches).  A key that matches no case, or whose
case's guard fails, falls through to the widget-forwarding epilogue,
which changes none of the fields modelled here: the result is `(m, [])`.
`readF` stands for `os.ReadFile` on a path. -/
def handleKey (readF : GoStr → Option GoStr) (m : AppModel) (k : Key) :
    AppModel × List Cmd :=
  match k with
  | Key.ctrlC => (m, [Cmd.quitCmd])
  | Key.ctrlU => (m, [Cmd.loadNotesCmd])
  | Key.tab =>
    if (m.mode = "new" ∨ m.mode = "edit") ∧ m.textInputFocused then
      ({ m with titleEntered := true, textInputFocused := false,
                textareaFocused := true }, [])
    else (m, [])
  | Key.ctrlN =>
    ({ m with mode := "new", textInputValue := [], textareaValue := [],
              titleEntered := false, textInputFocused := true,
              selectedNote := none }, [])
  | Key.ctrlS =>
    if m.mode = "new" ∨ m.mode = "edit" then
      if m.textInputValue ≠ [] then
        ({ m with mode := "list", textInputValue := [], textareaValue := [],
                  titleEntered := false, selectedNote := none },
         [Cmd.saveCmd m.textInputValue m.textareaValue m.selectedNote,
          Cmd.loadNotesCmd])
      else (m, [])
    else (m, [])
  | Key.ctrlD =>
    match m.selectedNote with
    | some n => (m, [Cmd.deleteCmd n.path, Cmd.loadNotesCmd])
    | none => (m, [])
  | Key.ctrlE =>
    match m.selectedNote with
    | some n =>
      ({ m with mode := "edit", textInputValue := n.title,
                textareaValue := (readF n.path).getD [],
                textInputFocused := true, titleEntered := true }, [])
    | none => (m, [])
  | Key.up =>
    handleUpDown readF m Key.up
  | Key.down =>
    handleUpDown readF m Key.down
  | Key.enter =>
    if m.mode = "list" then
      match selectedItem m with
      | some n =>
        ({ m with selectedNote := some n,
                  textareaValue := (readF n.path).getD [] }, [])
      | none => (m, [])
    else (m, [])
  | Key.esc =>
    ({ m with mode := "list", textInputValue := [], textareaValue := [],
              titleEntered := false, textInputFocused := false,
              textareaFocused := false, selectedNote := none }, [])

/-- The selection-restoring loop of the `[]note` handler: index and note
of the first entry whose path matches. -/
def findByPath : List Note → GoStr → Option (Nat × Note)
  | [], _ => none
  | n :: rest, p =>
    if n.path = p then some (0, n)
    else (findByPath rest p).map (fun q => (q.1 + 1, q.2))

/-- Insert a note into a list sorted by `createdAt` descending. -/
def insertNote (n : Note) : List Note → List Note
  | [] => [n]
  | m :: rest =>
    if m.createdAt ≤ n.createdAt then n :: m :: rest
    else m :: insertNote n rest

/-- The sort step of the `[]note` handler:
`sort.Slice(msg, func(i, j) { return msg[i].createdAt > msg[j].createdAt })`.
`sort.Slice` guarantees only sortedness under the given ordering (it is
not stable); it is modelled by a deterministic insertion sort with the
same ordering (`createdAt` descending). -/
def sortNotes (ns : List Note) : List Note :=
  ns.foldr insertNote []

/-- The selection the reload handler ends up with for a non-empty
sorted collection: the first note whose path matches the previously
selected one, or the first (newest) note when nothing was selected or
no path matches. -/
def reloadChoice (sorted : List Note) (first : Note) (sel : Option Note) :
    Nat × Note :=
  match sel with
  | none => (0, first)
  | some s =>
    match findByPath sorted s.path with
    | some q => q
    | none => (0, first)

def applyReload (readF : GoStr → Option GoStr) (m1 : AppModel)
    (sorted : List Note) (sel : Option Note) : AppModel :=
  match sorted with
  | [] => m1
  | first :: rest =>
    { m1 with listIndex := (reloadChoice (first :: rest) first sel).1,
              selectedNote := some (reloadChoice (first :: rest) first sel).2,
              textareaValue :=
                (readF (reloadChoice (first :: rest) first sel).2.path).getD [] }

/-- The `[]note` branch of `model.Update`: sort the freshly loaded
notes newest first, replace the collection and the list items
(`itemsFromNotes` is the identity on the underlying notes), then — only
when the collection is non-empty — restore the selection via
`reloadChoice`, loading the chosen note's content with `content, _ :=
os.ReadFile` (empty on error). -/
def handleNotesMsg (readF : GoStr → Option GoStr) (m : AppModel)
    (msg : List Note) : AppModel :=
  applyReload readF
    { m with notes := sortNotes msg, listItems := sortNotes msg }
    (sortNotes msg) m.selectedNote

/-- Modelled from the spec: the single-line text input collaborator
(§6) is external to this repository; per its contract a typed character
is appended only while the value is shorter than the configured
`CharLimit` (a positive limit caps the value's length). -/
def textInputTypeChar (limit : Nat) (value : GoStr) (c : Char) : GoStr :=
  if 0 < limit ∧ limit ≤ value.length then value else value ++ [c]

/-! ### Filesystem lemmas -/

theorem mem_map_fst_iff_any (fs : Fs) (nm : GoStr) :
    nm ∈ fs.map Prod.fst ↔ fs.any (fun e => e.1 = nm) = true := by
  induction fs with
  | nil => simp
  | cons e fs ih =>
    simp only [List.map_cons, List.mem_cons, List.any_cons, Bool.or_eq_true,
      decide_eq_true_eq, ih]
    constructor
    · rintro (h | h)
      · exact Or.inl h.symm
      · exact Or.inr h
    · rintro (h | h)
      · exact Or.inl h.symm
      · exact Or.inr h

theorem map_fst_writeFile_of_mem (fs : Fs) (nm c : GoStr)
    (h : nm ∈ fs.map Prod.fst) :
    (writeFile fs nm c).map Prod.fst = fs.map Prod.fst := by
  unfold writeFile
  rw [if_pos ((mem_map_fst_iff_any fs nm).1 h)]
  rw [List.map_map]
  apply List.map_congr_left
  intro e _
  by_cases he : e.1 = nm
  · simp [he]
  · simp [he]

theorem map_fst_writeFile_of_not_mem (fs : Fs) (nm c : GoStr)
    (h : nm ∉ fs.map Prod.fst) :
    (writeFile fs nm c).map Prod.fst = fs.map Prod.fst ++ [nm] := by
  unfold writeFile
  rw [if_neg (fun ha => h ((mem_map_fst_iff_any fs nm).2 ha))]
  simp

theorem readFile_writeFile_self (fs : Fs) (nm c : GoStr) :
    readFile (writeFile fs nm c) nm = some c := by
  unfold readFile writeFile
  by_cases h : fs.any (fun e => e.1 = nm) = true
  · rw [if_pos h]
    induction fs with
    | nil => simp at h
    | cons e fs ih =>
      by_cases he : e.1 = nm
      · simp [he, List.find?]
      · simp only [List.any_cons, Bool.or_eq_true, decide_eq_true_eq] at h
        rcases h with h | h
        · exact absurd h he
        · simpa [he, List.find?] using ih h
  · rw [if_neg h]
    induction fs with
    | nil => simp [List.find?]
    | cons e fs ih =>
      simp only [List.any_cons, Bool.or_eq_true, decide_eq_true_eq, not_or] at h
      simpa [List.find?, h.1] using ih (by simpa using h.2)

theorem find?_map_write (fs : Fs) (nm nm' c : GoStr) (h : nm' ≠ nm) :
    (fs.map (fun e => if e.1 = nm then (nm, c) else e)).find?
        (fun e => e.1 = nm')
      = fs.find? (fun e => e.1 = nm') := by
  induction fs with
  | nil => simp
  | cons e fs ih =>
    simp only [List.map_cons]
    by_cases he : e.1 = nm
    · rw [if_pos he,
        List.find?_cons_of_neg _ (by simp only [decide_eq_true_eq]; exact Ne.symm h),
        List.find?_cons_of_neg _ (by simp only [decide_eq_true_eq]; rw [he]; exact Ne.symm h)]
      exact ih
    · rw [if_neg he]
      by_cases he2 : e.1 = nm'
      · rw [List.find?_cons_of_pos _ (by simp only [decide_eq_true_eq]; exact he2),
          List.find?_cons_of_pos _ (by simp only [decide_eq_true_eq]; exact he2)]
      · rw [List.find?_cons_of_neg _ (by simp only [decide_eq_true_eq]; exact he2),
          List.find?_cons_of_neg _ (by simp only [decide_eq_true_eq]; exact he2)]
        exact ih

theorem readFile_writeFile_ne (fs : Fs) (nm nm' c : GoStr) (h : nm' ≠ nm) :
    readFile (writeFile fs nm c) nm' = readFile fs nm' := by
  unfold readFile writeFile
  by_cases ha : fs.any (fun e => e.1 = nm) = true
  · rw [if_pos ha, find?_map_write fs nm nm' c h]
  · rw [if_neg ha]
    induction fs with
    | nil =>
      have h1 : ¬ ((nm, c).1 = nm') := fun hx => h hx.symm
      simp [List.find?, h1]
    | cons e fs ih =>
      simp only [List.any_cons, Bool.or_eq_true, decide_eq_true_eq, not_or] at ha
      by_cases he2 : e.1 = nm'
      · simp [List.find?, he2]
      · simpa [List.find?, he2] using ih (by simpa using ha.2)

theorem removeFile_pred_true {α : Type} [DecidableEq α] {a b : α} (he : ¬ a = b) :
    (decide ¬ a = b) = true := by
  simp only [decide_not, Bool.not_eq_true', decide_eq_false_iff_not]
  exact he

theorem removeFile_pred_false {α : Type} [DecidableEq α] {a b : α} (he : a = b) :
    ¬ (decide ¬ a = b) = true := by
  simp only [decide_not, Bool.not_eq_true', decide_eq_false_iff_not, Decidable.not_not]
  exact he

theorem find?_removeFile_ne (fs : Fs) (nm nm' : GoStr) (h : nm' ≠ nm) :
    (removeFile fs nm).find? (fun e => e.1 = nm')
      = fs.find? (fun e => e.1 = nm') := by
  unfold removeFile
  induction fs with
  | nil => simp
  | cons e fs ih =>
    by_cases he : e.1 = nm
    · have hne : ¬ (decide (e.1 = nm')) = true := by
        simp only [decide_eq_true_eq]
        rw [he]
        exact Ne.symm h
      rw [List.filter_cons_of_neg (p := fun x : GoStr × GoStr => ¬ x.1 = nm) (removeFile_pred_false he),
        List.find?_cons_of_neg (p := fun x : GoStr × GoStr => x.1 = nm') _ hne]
      exact ih
    · rw [List.filter_cons_of_pos (p := fun x : GoStr × GoStr => ¬ x.1 = nm) (removeFile_pred_true he)]
      by_cases he2 : e.1 = nm'
      · have hp : (decide (e.1 = nm')) = true := by
          simp only [decide_eq_true_eq]
          exact he2
        rw [List.find?_cons_of_pos (p := fun x : GoStr × GoStr => x.1 = nm') _ hp,
          List.find?_cons_of_pos (p := fun x : GoStr × GoStr => x.1 = nm') _ hp]
      · have hp : ¬ (decide (e.1 = nm')) = true := by
          simp only [decide_eq_true_eq]
          exact he2
        rw [List.find?_cons_of_neg (p := fun x : GoStr × GoStr => x.1 = nm') _ hp,
          List.find?_cons_of_neg (p := fun x : GoStr × GoStr => x.1 = nm') _ hp]
        exact ih

theorem readFile_removeFile_self (fs : Fs) (nm : GoStr) :
    readFile (removeFile fs nm) nm = none := by
  unfold readFile
  have : (removeFile fs nm).find? (fun e => e.1 = nm) = none := by
    rw [List.find?_eq_none]
    intro x hx
    have hq := List.of_mem_filter hx
    simp only [decide_not, Bool.not_eq_true', decide_eq_false_iff_not] at hq
    simp only [decide_eq_true_eq]
    exact hq
  rw [this]
  rfl

theorem readFile_removeFile_ne (fs : Fs) (nm nm' : GoStr) (h : nm' ≠ nm) :
    readFile (removeFile fs nm) nm' = readFile fs nm' := by
  unfold readFile
  rw [find?_removeFile_ne fs nm nm' h]

theorem map_fst_removeFile (fs : Fs) (nm : GoStr) :
    (removeFile fs nm).map Prod.fst = (fs.map Prod.fst).filter (fun a => ¬ a = nm) := by
  unfold removeFile
  induction fs with
  | nil => simp
  | cons e fs ih =>
    by_cases he : e.1 = nm
    · rw [List.filter_cons_of_neg (p := fun x : GoStr × GoStr => ¬ x.1 = nm) (removeFile_pred_false he),
        List.map_cons,
        List.filter_cons_of_neg (p := fun x : GoStr => ¬ x = nm) (removeFile_pred_false he)]
      exact ih
    · rw [List.filter_cons_of_pos (p := fun x : GoStr × GoStr => ¬ x.1 = nm) (removeFile_pred_true he),
        List.map_cons, List.map_cons,
        List.filter_cons_of_pos (p := fun x : GoStr => ¬ x = nm) (removeFile_pred_true he)]
      rw [ih]

theorem not_mem_map_fst_removeFile (fs : Fs) (nm : GoStr) :
    nm ∉ (removeFile fs nm).map Prod.fst := by
  rw [map_fst_removeFile]
  intro h
  have := List.of_mem_filter h
  simp at this

theorem nodup_map_fst_removeFile (fs : Fs) (nm : GoStr)
    (h : (fs.map Prod.fst).Nodup) : ((removeFile fs nm).map Prod.fst).Nodup := by
  rw [map_fst_removeFile]
  exact h.filter _

theorem length_removeFile_add_one (fs : Fs) (nm : GoStr)
    (hnd : (fs.map Prod.fst).Nodup) (hm : nm ∈ fs.map Prod.fst) :
    (removeFile fs nm).length + 1 = fs.length := by
  unfold removeFile
  induction fs with
  | nil => simp at hm
  | cons e fs ih =>
    simp only [List.map_cons, List.nodup_cons] at hnd
    by_cases he : e.1 = nm
    · rw [List.filter_cons_of_neg (p := fun x : GoStr × GoStr => ¬ x.1 = nm) (removeFile_pred_false he)]
      have hself : fs.filter (fun e => ¬ e.1 = nm) = fs := by
        apply List.filter_eq_self.2
        intro a ha
        simp only [decide_not, Bool.not_eq_true', decide_eq_false_iff_not]
        intro hx
        have hmem : a.1 ∈ fs.map Prod.fst := List.mem_map.2 ⟨a, ha, rfl⟩
        rw [hx, ← he] at hmem
        exact hnd.1 hmem
      rw [hself, List.length_cons]
    · rw [List.filter_cons_of_pos (p := fun x : GoStr × GoStr => ¬ x.1 = nm) (removeFile_pred_true he),
        List.length_cons]
      simp only [List.map_cons, List.mem_cons] at hm
      rcases hm with hm | hm
      · exact absurd hm.symm he
      · rw [List.length_cons, ih hnd.2 hm]

theorem length_writeFile_of_not_mem (fs : Fs) (nm c : GoStr)
    (h : nm ∉ fs.map Prod.fst) :
    (writeFile fs nm c).length = fs.length + 1 := by
  unfold writeFile
  rw [if_neg (fun ha => h ((mem_map_fst_iff_any fs nm).2 ha))]
  simp

theorem countP_eq_one_of_nodup_mem (l : List GoStr) (nm : GoStr)
    (hnd : l.Nodup) (hm : nm ∈ l) : l.countP (fun x => x = nm) = 1 := by
  induction l with
  | nil => simp at hm
  | cons a l ih =>
    rcases List.nodup_cons.1 hnd with ⟨ha, hnd'⟩
    rcases List.mem_cons.1 hm with hm | hm
    · subst hm
      rw [List.countP_cons_of_pos _ _ (by simp)]
      have hz : l.countP (fun x => x = nm) = 0 := by
        rw [List.countP_eq_zero]
        intro x hx
        simp only [decide_eq_true_eq]
        intro he
        exact ha (he ▸ hx)
      rw [hz]
    · have hne : ¬ a = nm := fun he => ha (he ▸ hm)
      rw [List.countP_cons_of_neg _ _ (by simpa using hne)]
      exact ih hnd' hm

theorem countP_map_fst_writeFile_self (fs : Fs) (nm c : GoStr)
    (hnd : (fs.map Prod.fst).Nodup) :
    ((writeFile fs nm c).map Prod.fst).countP (fun x => x = nm) = 1 := by
  by_cases h : nm ∈ fs.map Prod.fst
  · rw [map_fst_writeFile_of_mem fs nm c h]
    exact countP_eq_one_of_nodup_mem _ nm hnd h
  · rw [map_fst_writeFile_of_not_mem fs nm c h]
    rw [List.countP_append]
    have hz : (fs.map Prod.fst).countP (fun x => x = nm) = 0 := by
      rw [List.countP_eq_zero]
      intro x hx
      simp only [decide_eq_true_eq]
      intro he
      exact h (he ▸ hx)
    rw [hz]
    simp

theorem nodup_map_fst_writeFile (fs : Fs) (nm c : GoStr)
    (hnd : (fs.map Prod.fst).Nodup) : ((writeFile fs nm c).map Prod.fst).Nodup := by
  by_cases h : nm ∈ fs.map Prod.fst
  · rw [map_fst_writeFile_of_mem fs nm c h]; exact hnd
  · rw [map_fst_writeFile_of_not_mem fs nm c h]
    refine List.Nodup.append hnd (List.nodup_singleton nm) ?_
    intro x hx hx2
    simp only [List.mem_singleton] at hx2
    subst hx2
    exact h hx

/-! ### String lemmas -/

theorem hasSuffix_append (l suff : GoStr) : hasSuffix (l ++ suff) suff = true := by
  unfold hasSuffix
  rw [Bool.and_eq_true, decide_eq_true_eq, decide_eq_true_eq]
  constructor
  · rw [List.length_append]
    omega
  · rw [List.length_append, Nat.add_sub_cancel, List.drop_left]

theorem trimSuffix_append (l suff : GoStr) : trimSuffix (l ++ suff) suff = l := by
  unfold trimSuffix
  rw [if_pos (hasSuffix_append l suff), List.length_append, Nat.add_sub_cancel,
    List.take_left]

theorem mem_of_hasSuffix (s suff : GoStr) (c : Char) (h : hasSuffix s suff = true)
    (hc : c ∈ suff) : c ∈ s := by
  unfold hasSuffix at h
  rw [Bool.and_eq_true, decide_eq_true_eq, decide_eq_true_eq] at h
  have := h.2 ▸ hc
  exact List.drop_subset _ s this

theorem trimSuffix_of_not_mem_dot (s : GoStr) (h : '.' ∉ s) :
    trimSuffix s mdExt = s := by
  unfold trimSuffix
  rw [if_neg]
  intro hsuf
  exact h (mem_of_hasSuffix s mdExt '.' hsuf (by decide))

theorem splitN2_no_dash_first (s a b : GoStr) (h : splitN2 s = [a, b]) :
    ∀ c ∈ a, c ≠ '-' := by
  unfold splitN2 at h
  rcases hd : s.dropWhile (fun c => c ≠ '-') with _ | ⟨x, rest⟩
  · rw [hd] at h
    simp at h
  · rw [hd] at h
    simp only [List.cons.injEq] at h
    intro c hc
    have := List.mem_takeWhile_imp (h.1 ▸ hc)
    simpa using this

theorem takeWhile_append_stop (p : Char → Bool) (l r : GoStr) (x : Char)
    (hl : ∀ c ∈ l, p c = true) (hx : ¬ p x = true) :
    (l ++ x :: r).takeWhile p = l := by
  induction l with
  | nil =>
    rw [List.nil_append, List.takeWhile_cons_of_neg hx]
  | cons y l ih =>
    rw [List.cons_append, List.takeWhile_cons_of_pos (hl y (List.mem_cons_self y l))]
    rw [ih (fun c hc => hl c (List.mem_cons_of_mem y hc))]

theorem dropWhile_append_stop (p : Char → Bool) (l r : GoStr) (x : Char)
    (hl : ∀ c ∈ l, p c = true) (hx : ¬ p x = true) :
    (l ++ x :: r).dropWhile p = x :: r := by
  induction l with
  | nil =>
    rw [List.nil_append, List.dropWhile_cons_of_neg hx]
  | cons y l ih =>
    rw [List.cons_append, List.dropWhile_cons_of_pos (hl y (List.mem_cons_self y l))]
    exact ih (fun c hc => hl c (List.mem_cons_of_mem y hc))

theorem dropWhile_head_false (p : Char → Bool) (l rest : GoStr) (x : Char)
    (h : l.dropWhile p = x :: rest) : p x = false := by
  induction l with
  | nil => simp at h
  | cons y l ih =>
    by_cases hy : p y = true
    · rw [List.dropWhile_cons_of_pos hy] at h
      exact ih h
    · rw [List.dropWhile_cons_of_neg hy] at h
      rcases List.cons.inj h with ⟨h1, _⟩
      subst h1
      exact Bool.eq_false_iff.2 hy

theorem splitN2_append (a b : GoStr) (ha : ∀ c ∈ a, c ≠ '-') :
    splitN2 (a ++ '-' :: b) = [a, b] := by
  unfold splitN2
  have htw := takeWhile_append_stop (fun c => c ≠ '-') a ('-' :: b).tail '-'
    (fun c hc => by simpa using ha c hc) (by simp)
  have hdw := dropWhile_append_stop (fun c => c ≠ '-') a ('-' :: b).tail '-'
    (fun c hc => by simpa using ha c hc) (by simp)
  simp only [List.tail_cons] at htw hdw
  rw [htw, hdw]

theorem splitN2_recover (s a b : GoStr) (h : splitN2 s = [a, b]) :
    s = a ++ '-' :: b := by
  unfold splitN2 at h
  rcases hd : s.dropWhile (fun c => c ≠ '-') with _ | ⟨x, rest⟩
  · rw [hd] at h
    simp at h
  · rw [hd] at h
    simp only [List.cons.injEq] at h
    have hx : x = '-' := by
      have := dropWhile_head_false _ _ _ _ hd
      simpa using this
    have hsplit := List.takeWhile_append_dropWhile
      (p := fun c : Char => decide (c ≠ '-')) (l := s)
    calc s = List.takeWhile (fun c : Char => decide (c ≠ '-')) s ++
          List.dropWhile (fun c : Char => decide (c ≠ '-')) s := hsplit.symm
      _ = a ++ '-' :: b := by rw [hd, h.1, hx, h.2.1]

theorem joinPath_inj (dir a b : GoStr) (h : joinPath dir a = joinPath dir b) :
    a = b := by
  unfold joinPath at h
  have := List.append_cancel_left h
  exact List.tail_eq_of_cons_eq this

theorem baseName_joinPath (dir name : GoStr) (h : '/' ∉ name) :
    baseName (joinPath dir name) = name := by
  unfold baseName joinPath
  have hrev : (dir ++ '/' :: name).reverse = name.reverse ++ '/' :: dir.reverse := by
    rw [List.reverse_append, List.reverse_cons, List.append_assoc]
    simp
  rw [hrev]
  rw [takeWhile_append_stop _ _ _ _ ?hl ?hx]
  · exact List.reverse_reverse name
  case hl =>
    intro c hc
    simp only [decide_eq_true_eq]
    intro hceq
    exact h (hceq ▸ List.mem_reverse.1 hc)
  case hx => simp

/-! ### Decimal rendering and parsing lemmas -/

theorem natToDigitsAux_fuel (n : Nat) : ∀ f g : Nat, n < f → n < g →
    natToDigitsAux f n = natToDigitsAux g n := by
  induction n using Nat.strong_induction_on with
  | _ n ih =>
    intro f g hf hg
    rcases f with _ | f
    · omega
    rcases g with _ | g
    · omega
    rw [natToDigitsAux, natToDigitsAux]
    by_cases h10 : n < 10
    · rw [if_pos h10, if_pos h10]
    · rw [if_neg h10, if_neg h10]
      have hd : n / 10 < n := Nat.div_lt_self (by omega) (by omega)
      rw [ih (n / 10) hd f g (by omega) (by omega)]

theorem natToDigits_unfold (n : Nat) :
    natToDigits n = if n < 10 then [Nat.digitChar n]
      else natToDigits (n / 10) ++ [Nat.digitChar (n % 10)] := by
  unfold natToDigits
  rw [natToDigitsAux]
  by_cases h10 : n < 10
  · rw [if_pos h10, if_pos h10]
  · rw [if_neg h10, if_neg h10]
    have hd : n / 10 < n := Nat.div_lt_self (by omega) (by omega)
    rw [natToDigitsAux_fuel (n / 10) n (n / 10 + 1) (by omega) (by omega)]

theorem digitChar_toNat (r : Nat) (h : r < 10) :
    (Nat.digitChar r).toNat = 48 + r := by
  interval_cases r <;> decide

theorem digitChar_isDigit (r : Nat) (h : r < 10) :
    (Nat.digitChar r).isDigit = true := by
  interval_cases r <;> decide

theorem digitsToNat_append_one (l : GoStr) (c : Char) :
    digitsToNat (l ++ [c]) = digitsToNat l * 10 + (c.toNat - '0'.toNat) := by
  unfold digitsToNat
  rw [List.foldl_append]
  rfl

theorem mem_natToDigits_isDigit (n : Nat) :
    ∀ c ∈ natToDigits n, c.isDigit = true := by
  induction n using Nat.strong_induction_on with
  | _ n ih =>
    intro c hc
    rw [natToDigits_unfold] at hc
    by_cases h10 : n < 10
    · rw [if_pos h10] at hc
      rcases List.mem_singleton.1 hc with rfl
      exact digitChar_isDigit n h10
    · rw [if_neg h10] at hc
      rcases List.mem_append.1 hc with hc | hc
      · exact ih (n / 10) (Nat.div_lt_self (by omega) (by omega)) c hc
      · rcases List.mem_singleton.1 hc with rfl
        exact digitChar_isDigit (n % 10) (Nat.mod_lt n (by omega))

theorem digitsToNat_natToDigits (n : Nat) :
    digitsToNat (natToDigits n) = n := by
  induction n using Nat.strong_induction_on with
  | _ n ih =>
    rw [natToDigits_unfold]
    by_cases h10 : n < 10
    · rw [if_pos h10]
      show digitsToNat ([] ++ [Nat.digitChar n]) = n
      rw [digitsToNat_append_one]
      have := digitChar_toNat n h10
      unfold digitsToNat
      simp [this]
    · rw [if_neg h10]
      rw [digitsToNat_append_one,
        ih (n / 10) (Nat.div_lt_self (by omega) (by omega))]
      have := digitChar_toNat (n % 10) (Nat.mod_lt n (by omega))
      rw [this]
      have h0 : ('0').toNat = 48 := by decide
      rw [h0]
      omega

theorem natToDigits_ne_nil (n : Nat) : natToDigits n ≠ [] := by
  rw [natToDigits_unfold]
  by_cases h10 : n < 10
  · rw [if_pos h10]
    exact List.cons_ne_nil _ _
  · rw [if_neg h10]
    intro h
    rcases List.append_eq_nil.1 h with ⟨_, h2⟩
    exact List.cons_ne_nil _ _ h2

theorem isDigit_ne (c d : Char) (h : c.isDigit = true) (h2 : d.isDigit = false) :
    c ≠ d := by
  intro he
  rw [he, h2] at h
  cases h

theorem parseDigits_pos (ds : GoStr) (hne : ds ≠ [])
    (hdig : ∀ c ∈ ds, c.isDigit = true)
    (hrange : (digitsToNat ds : Int) ≤ 2 ^ 63 - 1) :
    parseDigits false ds = some (digitsToNat ds : Int) := by
  unfold parseDigits
  rw [if_neg hne]
  have hall : ds.all Char.isDigit = true := List.all_eq_true.2 (fun c hc => hdig c hc)
  rw [if_pos hall]
  have hr : -(2 ^ 63 : Int) ≤ (digitsToNat ds : Int) ∧
      (digitsToNat ds : Int) ≤ 2 ^ 63 - 1 := by
    constructor
    · have : (0 : Int) ≤ (digitsToNat ds : Int) := Int.ofNat_nonneg _
      omega
    · exact hrange
  show (if -(2 ^ 63 : Int) ≤ (digitsToNat ds : Int) ∧
      (digitsToNat ds : Int) ≤ 2 ^ 63 - 1 then some ((digitsToNat ds : Int)) else none)
    = some ((digitsToNat ds : Int))
  rw [if_pos hr]

theorem parseInt64_natToDigits (n : Nat) (hrange : (n : Int) ≤ 2 ^ 63 - 1) :
    parseInt64 (natToDigits n) = some (n : Int) := by
  rcases hd : natToDigits n with _ | ⟨c, rest⟩
  · exact absurd hd (natToDigits_ne_nil n)
  have hcd : c.isDigit = true :=
    mem_natToDigits_isDigit n c (by rw [hd]; exact List.mem_cons_self c rest)
  unfold parseInt64
  show (if c = '-' then parseDigits true rest
    else if c = '+' then parseDigits false rest
    else parseDigits false (c :: rest)) = some (n : Int)
  rw [if_neg (isDigit_ne c '-' hcd (by decide)),
    if_neg (isDigit_ne c '+' hcd (by decide))]
  rw [← hd]
  have := parseDigits_pos (natToDigits n) (natToDigits_ne_nil n)
    (mem_natToDigits_isDigit n) (by rw [digitsToNat_natToDigits]; exact hrange)
  rw [digitsToNat_natToDigits] at this
  exact this

theorem intToStr_nonneg (i : Int) (h : 0 ≤ i) : intToStr i = natToDigits i.toNat := by
  unfold intToStr
  rw [if_neg (by omega)]

theorem parseInt64_intToStr (i : Int) (h0 : 0 ≤ i) (hrange : i ≤ 2 ^ 63 - 1) :
    parseInt64 (intToStr i) = some i := by
  rw [intToStr_nonneg i h0, parseInt64_natToDigits i.toNat
    (by rw [Int.toNat_of_nonneg h0]; exact hrange)]
  rw [Int.toNat_of_nonneg h0]

theorem mem_intToStr_isDigit (i : Int) (h : 0 ≤ i) :
    ∀ c ∈ intToStr i, c.isDigit = true := by
  rw [intToStr_nonneg i h]
  exact mem_natToDigits_isDigit i.toNat


/-! ### Sanitize and restore lemmas -/

theorem sanChar_ne_dot (c : Char) : sanChar c ≠ '.' := by
  unfold sanChar
  by_cases h : keepChar c
  · rw [if_pos h]
    intro he
    rw [he] at h
    exact absurd h (by decide)
  · rw [if_neg h]
    decide

theorem sanChar_ne_slash (c : Char) : sanChar c ≠ '/' := by
  unfold sanChar
  by_cases h : keepChar c
  · rw [if_pos h]
    intro he
    rw [he] at h
    exact absurd h (by decide)
  · rw [if_neg h]
    decide

theorem restoreChar_ne_dot (c : Char) (h : c ≠ '.') : restoreChar c ≠ '.' := by
  unfold restoreChar
  by_cases h2 : c = '-'
  · rw [if_pos h2]
    decide
  · rw [if_neg h2]
    exact h

theorem sanChar_roundtrip (c : Char) : sanChar (restoreChar (sanChar c)) = sanChar c := by
  by_cases h : keepChar c
  · by_cases h2 : c = '-'
    · subst h2
      decide
    · have e1 : sanChar c = c := if_pos h
      have e2 : restoreChar c = c := if_neg h2
      rw [e1, e2, e1]
  · have e1 : sanChar c = '-' := if_neg h
    rw [e1]
    decide

theorem map_sanChar_roundtrip (w : GoStr) :
    ((w.map sanChar).map restoreChar).map sanChar = w.map sanChar := by
  rw [List.map_map, List.map_map]
  apply List.map_congr_left
  intro a _
  exact sanChar_roundtrip a

theorem dot_not_mem_sanitize (t : GoStr) : '.' ∉ sanitizeFileName t := by
  intro h
  rcases List.mem_map.1 h with ⟨c, _, hc⟩
  exact sanChar_ne_dot c hc

theorem slash_not_mem_sanitize (t : GoStr) : '/' ∉ sanitizeFileName t := by
  intro h
  rcases List.mem_map.1 h with ⟨c, _, hc⟩
  exact sanChar_ne_slash c hc

theorem dot_not_mem_restore_sanitize (t : GoStr) :
    '.' ∉ restoreTitle (sanitizeFileName t) := by
  intro h
  rcases List.mem_map.1 h with ⟨x, hx, hxe⟩
  rcases List.mem_map.1 hx with ⟨c, _, hce⟩
  subst hce
  exact restoreChar_ne_dot _ (sanChar_ne_dot c) hxe

theorem sanitize_restore_sanitize (t : GoStr) :
    sanitizeFileName (restoreTitle (sanitizeFileName t)) = sanitizeFileName t := by
  have h1 : trimSuffix (restoreTitle (sanitizeFileName t)) mdExt
      = restoreTitle (sanitizeFileName t) :=
    trimSuffix_of_not_mem_dot _ (dot_not_mem_restore_sanitize t)
  show (trimSuffix (restoreTitle (sanitizeFileName t)) mdExt).map sanChar
    = sanitizeFileName t
  rw [h1]
  show (((trimSuffix t mdExt).map sanChar).map restoreChar).map sanChar
    = sanitizeFileName t
  exact map_sanChar_roundtrip _

/-- The file name `saveNote` builds from a timestamp string and a title:
`<ts>-<sanitize(title)>.md`. -/
def saveName (ts title : GoStr) : GoStr :=
  ts ++ '-' :: (sanitizeFileName title ++ mdExt)

theorem slash_not_mem_saveName (ts title : GoStr) (hts : ∀ c ∈ ts, c ≠ '/') :
    '/' ∉ saveName ts title := by
  unfold saveName
  intro h
  rcases List.mem_append.1 h with h | h
  · exact hts '/' h rfl
  · rcases List.mem_cons.1 h with h | h
    · exact absurd h.symm (by decide)
    · rcases List.mem_append.1 h with h | h
      · exact slash_not_mem_sanitize title h
      · revert h
        decide

theorem splitN2_saveName (ts title : GoStr) (hts : ∀ c ∈ ts, c ≠ '-') :
    splitN2 (saveName ts title) = [ts, sanitizeFileName title ++ mdExt] :=
  splitN2_append ts _ hts

theorem hasSuffix_saveName (ts title : GoStr) :
    hasSuffix (saveName ts title) mdExt = true := by
  unfold saveName
  have : ts ++ '-' :: (sanitizeFileName title ++ mdExt)
      = (ts ++ '-' :: sanitizeFileName title) ++ mdExt := by
    simp
  rw [this]
  exact hasSuffix_append _ _

theorem parseNoteFile_saveName (dir ts title : GoStr) (v : Int)
    (hts : ∀ c ∈ ts, c ≠ '-') (hparse : parseInt64 ts = some v) :
    parseNoteFile dir (saveName ts title)
      = some { title := restoreTitle (sanitizeFileName title)
               path := joinPath dir (saveName ts title)
               createdAt := v } := by
  unfold parseNoteFile
  rw [if_pos (hasSuffix_saveName ts title), splitN2_saveName ts title hts]
  show (match parseInt64 ts with
    | some t => some (Note.mk
        (restoreTitle (trimSuffix (sanitizeFileName title ++ mdExt) mdExt))
        (joinPath dir (saveName ts title)) t)
    | none => (none : Option Note)) = _
  rw [hparse, trimSuffix_append]


/-! ### Listing lemmas -/

theorem parseNoteFile_some_spec (dir name : GoStr) (nt : Note)
    (h : parseNoteFile dir name = some nt) :
    hasSuffix name mdExt = true ∧ ∃ tsStr rest, splitN2 name = [tsStr, rest] ∧
      parseInt64 tsStr = some nt.createdAt ∧
      nt.title = restoreTitle (trimSuffix rest mdExt) ∧
      nt.path = joinPath dir name := by
  unfold parseNoteFile at h
  by_cases hsuf : hasSuffix name mdExt = true
  · rw [if_pos hsuf] at h
    rcases hs : splitN2 name with _ | ⟨a, _ | ⟨b, _ | ⟨x, l⟩⟩⟩
    · rw [hs] at h
      simp at h
    · rw [hs] at h
      simp at h
    · rw [hs] at h
      change (match parseInt64 a with
        | some ts => some (Note.mk (restoreTitle (trimSuffix b mdExt))
            (joinPath dir name) ts)
        | none => (none : Option Note)) = some nt at h
      rcases hp : parseInt64 a with _ | ts
      · rw [hp] at h
        simp at h
      · rw [hp] at h
        simp only [Option.some.injEq] at h
        refine ⟨hsuf, a, b, rfl, ?_, ?_, ?_⟩
        · rw [← h]
          exact hp
        · rw [← h]
        · rw [← h]
    · rw [hs] at h
      simp at h
  · rw [if_neg hsuf] at h
    simp at h

theorem parseNoteFile_path (dir name : GoStr) (nt : Note)
    (h : parseNoteFile dir name = some nt) : nt.path = joinPath dir name :=
  (parseNoteFile_some_spec dir name nt h).2.choose_spec.choose_spec.2.2.2

theorem parseNoteFile_none_of_not_suffix (dir name : GoStr)
    (h : ¬ hasSuffix name mdExt = true) : parseNoteFile dir name = none := by
  unfold parseNoteFile
  rw [if_neg h]

theorem parseNoteFile_none_of_no_delim (dir name : GoStr)
    (h : splitN2 name = [name]) : parseNoteFile dir name = none := by
  unfold parseNoteFile
  by_cases hsuf : hasSuffix name mdExt = true
  · rw [if_pos hsuf, h]
  · rw [if_neg hsuf]

theorem parseNoteFile_none_of_bad_ts (dir name a b : GoStr)
    (hs : splitN2 name = [a, b]) (hp : parseInt64 a = none) :
    parseNoteFile dir name = none := by
  unfold parseNoteFile
  by_cases hsuf : hasSuffix name mdExt = true
  · rw [if_pos hsuf, hs]
    show (match parseInt64 a with
      | some t => some (Note.mk (restoreTitle (trimSuffix b mdExt)) (joinPath dir name) t)
      | none => (none : Option Note)) = none
    rw [hp]
  · rw [if_neg hsuf]

theorem mem_loadNotes (dir : GoStr) (names : List GoStr) (nt : Note) :
    nt ∈ loadNotes dir names ↔ ∃ name ∈ names, parseNoteFile dir name = some nt := by
  unfold loadNotes
  rw [List.mem_filterMap]

theorem countP_loadNotes_target (dir target : GoStr) (nt0 : Note)
    (hparse : parseNoteFile dir target = some nt0) (names : List GoStr) :
    (loadNotes dir names).countP (fun x => x.path = joinPath dir target)
      = names.countP (fun x => x = target) := by
  induction names with
  | nil => rfl
  | cons nm names ih =>
    unfold loadNotes at ih ⊢
    rw [List.filterMap_cons]
    by_cases he : nm = target
    · subst he
      rw [hparse]
      rw [List.countP_cons_of_pos _ _
        (by simp only [decide_eq_true_eq]; exact parseNoteFile_path dir nm nt0 hparse)]
      rw [List.countP_cons_of_pos _ _ (by simp)]
      rw [ih]
    · rcases hp : parseNoteFile dir nm with _ | nt
      · rw [List.countP_cons_of_neg _ _ (by simpa using he)]
        exact ih
      · have hne : ¬ nt.path = joinPath dir target := by
          rw [parseNoteFile_path dir nm nt hp]
          intro hj
          exact he (joinPath_inj dir nm target hj)
        rw [List.countP_cons_of_neg _ _ (by simpa using hne)]
        rw [List.countP_cons_of_neg _ _ (by simpa using he)]
        exact ih


/-! ### Sorting and selection lemmas -/

theorem insertNote_perm (n : Note) (l : List Note) :
    (insertNote n l).Perm (n :: l) := by
  induction l with
  | nil => exact List.Perm.refl _
  | cons m rest ih =>
    unfold insertNote
    by_cases h : m.createdAt ≤ n.createdAt
    · rw [if_pos h]
    · rw [if_neg h]
      exact (ih.cons m).trans (List.Perm.swap n m rest)

theorem insertNote_sorted (n : Note) (l : List Note)
    (h : List.Pairwise (fun a b => b.createdAt ≤ a.createdAt) l) :
    List.Pairwise (fun a b => b.createdAt ≤ a.createdAt) (insertNote n l) := by
  induction l with
  | nil => exact List.pairwise_singleton _ n
  | cons m rest ih =>
    unfold insertNote
    rcases List.pairwise_cons.1 h with ⟨hm, hrest⟩
    by_cases hle : m.createdAt ≤ n.createdAt
    · rw [if_pos hle]
      refine List.pairwise_cons.2 ⟨?_, h⟩
      intro x hx
      rcases List.mem_cons.1 hx with rfl | hx
      · exact hle
      · exact le_trans (hm x hx) hle
    · rw [if_neg hle]
      refine List.pairwise_cons.2 ⟨?_, ih hrest⟩
      intro x hx
      have hx2 : x ∈ n :: rest := (insertNote_perm n rest).mem_iff.1 hx
      rcases List.mem_cons.1 hx2 with rfl | hx2
      · omega
      · exact hm x hx2

theorem sortNotes_perm (ns : List Note) : (sortNotes ns).Perm ns := by
  induction ns with
  | nil => exact List.Perm.refl _
  | cons n rest ih =>
    show (insertNote n (sortNotes rest)).Perm (n :: rest)
    exact (insertNote_perm n (sortNotes rest)).trans (ih.cons n)

theorem sortNotes_sorted (ns : List Note) :
    List.Pairwise (fun a b => b.createdAt ≤ a.createdAt) (sortNotes ns) := by
  induction ns with
  | nil => simp [sortNotes]
  | cons n rest ih =>
    show List.Pairwise _ (insertNote n (sortNotes rest))
    exact insertNote_sorted n (sortNotes rest) ih

theorem findByPath_none_iff (l : List Note) (p : GoStr) :
    findByPath l p = none ↔ ∀ n ∈ l, n.path ≠ p := by
  induction l with
  | nil => simp [findByPath]
  | cons n l ih =>
    unfold findByPath
    by_cases hn : n.path = p
    · rw [if_pos hn]
      simp only [Option.some_ne_none, false_iff, not_forall]
      exact ⟨n, List.mem_cons_self n l, not_not_intro hn⟩
    · rw [if_neg hn]
      constructor
      · intro h x hx
        rcases List.mem_cons.1 hx with rfl | hx2
        · exact hn
        · have hl : findByPath l p = none := by
            rcases hf : findByPath l p with _ | q
            · rfl
            · rw [hf] at h
              exact Option.noConfusion h
          exact (ih.1 hl) x hx2
      · intro h
        have hl : findByPath l p = none :=
          ih.2 (fun x hx => h x (List.mem_cons_of_mem n hx))
        rw [hl]
        rfl

theorem findByPath_some_spec (l : List Note) (p : GoStr) (q : Nat × Note)
    (h : findByPath l p = some q) : q.2 ∈ l ∧ q.2.path = p := by
  induction l generalizing q with
  | nil => simp [findByPath] at h
  | cons n l ih =>
    unfold findByPath at h
    by_cases hn : n.path = p
    · rw [if_pos hn] at h
      have := Option.some.inj h
      rw [← this]
      exact ⟨List.mem_cons_self n l, hn⟩
    · rw [if_neg hn] at h
      rcases hf : findByPath l p with _ | q2
      · rw [hf] at h
        exact Option.noConfusion h
      · rw [hf] at h
        have h : (q2.1 + 1, q2.2) = q := Option.some.inj h
        rcases ih q2 hf with ⟨hm, hp⟩
        rw [← h]
        exact ⟨List.mem_cons_of_mem n hm, hp⟩

theorem reloadChoice_none (sorted : List Note) (first : Note) :
    reloadChoice sorted first none = (0, first) := rfl

theorem reloadChoice_found (sorted : List Note) (first sel : Note)
    (q : Nat × Note) (hf : findByPath sorted sel.path = some q) :
    reloadChoice sorted first (some sel) = q := by
  unfold reloadChoice
  show (match findByPath sorted sel.path with
    | some q2 => q2
    | none => (0, first)) = q
  rw [hf]

theorem reloadChoice_lost (sorted : List Note) (first sel : Note)
    (hf : findByPath sorted sel.path = none) :
    reloadChoice sorted first (some sel) = (0, first) := by
  unfold reloadChoice
  show (match findByPath sorted sel.path with
    | some q2 => q2
    | none => (0, first)) = (0, first)
  rw [hf]

theorem handleNotesMsg_notes (readF : GoStr → Option GoStr) (m : AppModel)
    (msg : List Note) :
    (handleNotesMsg readF m msg).notes = sortNotes msg ∧
    (handleNotesMsg readF m msg).listItems = sortNotes msg := by
  unfold handleNotesMsg applyReload
  rcases hs : sortNotes msg with _ | ⟨first, rest⟩
  · exact ⟨rfl, rfl⟩
  · exact ⟨rfl, rfl⟩

theorem handleNotesMsg_empty (readF : GoStr → Option GoStr) (m : AppModel) :
    (handleNotesMsg readF m []).selectedNote = m.selectedNote := by
  unfold handleNotesMsg applyReload
  rw [(sortNotes_perm []).eq_nil]

theorem handleNotesMsg_cons (readF : GoStr → Option GoStr) (m : AppModel)
    (msg : List Note) (first : Note) (rest : List Note)
    (hs : sortNotes msg = first :: rest) :
    (handleNotesMsg readF m msg).selectedNote
        = some (reloadChoice (first :: rest) first m.selectedNote).2 ∧
    (handleNotesMsg readF m msg).textareaValue
        = (readF (reloadChoice (first :: rest) first m.selectedNote).2.path).getD [] ∧
    (handleNotesMsg readF m msg).listIndex
        = (reloadChoice (first :: rest) first m.selectedNote).1 := by
  unfold handleNotesMsg applyReload
  rw [hs]
  exact ⟨rfl, rfl, rfl⟩

/-! ### Additional structural lemmas for the claims -/

theorem splitN2_cases (s : GoStr) :
    splitN2 s = [s] ∨ ∃ a b, splitN2 s = [a, b] := by
  unfold splitN2
  rcases hd : s.dropWhile (fun c => c ≠ '-') with _ | ⟨x, rest⟩
  · exact Or.inl rfl
  · exact Or.inr ⟨s.takeWhile (fun c => c ≠ '-'), rest, rfl⟩

/-! ### The claims -/

/-- C4: whenever a reload completes, the notes replacing the in-memory
collection are exactly the loaded notes sorted by `createdAt`
descending (newest first): the new collection is sorted under `≥` on
`createdAt` and is a permutation of the delivered message; in
particular two notes with `createdAt` 100 and 200 come out in the order
[200-note, 100-note]. -/
theorem C4_reload_sorted_desc (readF : GoStr → Option GoStr) (m : AppModel)
    (msg : List Note) :
    (handleNotesMsg readF m msg).notes = sortNotes msg
    ∧ List.Pairwise (fun a b => b.createdAt ≤ a.createdAt)
        ((handleNotesMsg readF m msg).notes)
    ∧ ((handleNotesMsg readF m msg).notes).Perm msg
    ∧ sortNotes [Note.mk ['a'] ['p'] 100, Note.mk ['b'] ['q'] 200]
        = [Note.mk ['b'] ['q'] 200, Note.mk ['a'] ['p'] 100] := by
  refine ⟨(handleNotesMsg_notes readF m msg).1, ?_, ?_, by decide⟩
  · rw [(handleNotesMsg_notes readF m msg).1]
    exact sortNotes_sorted msg
  · rw [(handleNotesMsg_notes readF m msg).1]
    exact sortNotes_perm msg

/-- C5: a listing includes only files whose name ends in `".md"` and
parses as `<numeric timestamp>-<rest>`: every file with a different
extension, a missing `'-'` delimiter, or a timestamp prefix that
`ParseInt` rejects is silently skipped (its parse is `none` and no note
in the results carries its path), and every listed note comes from a
file whose name parses, with the title recovered as the remainder minus
the extension with every `'-'` restored to a space. -/
theorem C5_listing_filters_and_titles (dir : GoStr) (files : List GoStr) :
    (∀ name ∈ files,
      (hasSuffix name mdExt = false ∨ splitN2 name = [name] ∨
       parseInt64 ((splitN2 name).headD []) = none) →
      parseNoteFile dir name = none ∧
      ∀ nt ∈ loadNotes dir files, nt.path ≠ joinPath dir name)
    ∧ (∀ nt ∈ loadNotes dir files, ∃ name ∈ files, ∃ tsStr rest,
        hasSuffix name mdExt = true ∧ splitN2 name = [tsStr, rest] ∧
        parseInt64 tsStr = some nt.createdAt ∧
        nt.title = restoreTitle (trimSuffix rest mdExt) ∧
        nt.path = joinPath dir name) := by
  constructor
  · intro name hmem hbad
    have hnone : parseNoteFile dir name = none := by
      rcases hbad with hb | hb | hb
      · exact parseNoteFile_none_of_not_suffix dir name (by rw [hb]; exact Bool.false_ne_true)
      · exact parseNoteFile_none_of_no_delim dir name hb
      · rcases splitN2_cases name with hc | ⟨a, b, hc⟩
        · exact parseNoteFile_none_of_no_delim dir name hc
        · rw [hc] at hb
          exact parseNoteFile_none_of_bad_ts dir name a b hc hb
    refine ⟨hnone, ?_⟩
    intro nt hnt hpath
    rcases (mem_loadNotes dir files nt).1 hnt with ⟨name2, _, hp2⟩
    have := parseNoteFile_path dir name2 nt hp2
    rw [this] at hpath
    have := joinPath_inj dir name2 name hpath
    rw [this] at hp2
    rw [hnone] at hp2
    exact Option.noConfusion hp2
  · intro nt hnt
    rcases (mem_loadNotes dir files nt).1 hnt with ⟨name, hmem, hp⟩
    rcases parseNoteFile_some_spec dir name nt hp with ⟨hsuf, tsStr, rest, hs, hts, hti, hpa⟩
    exact ⟨name, hmem, tsStr, rest, hsuf, hs, hts, hti, hpa⟩

/-- Witness for C5: in a directory holding `note.txt`, `nodash.md`,
`xx-1.md` and `100-a.md`, the file `xx-1.md` (non-numeric timestamp
prefix) is skipped: its parse is `none` and no listed note carries its
path. -/
theorem C5_witness :
    (("xx-1.md".toList ∈
        (["note.txt".toList, "nodash.md".toList, "xx-1.md".toList,
          "100-a.md".toList] : List GoStr)) ∧
      (hasSuffix "xx-1.md".toList mdExt = false ∨
       splitN2 "xx-1.md".toList = ["xx-1.md".toList] ∨
       parseInt64 ((splitN2 "xx-1.md".toList).headD []) = none))
    ∧ (parseNoteFile ['d'] "xx-1.md".toList = none ∧
       ∀ nt ∈ loadNotes ['d']
          ["note.txt".toList, "nodash.md".toList, "xx-1.md".toList,
           "100-a.md".toList],
         nt.path ≠ joinPath ['d'] "xx-1.md".toList) :=
  ⟨⟨by decide, by decide⟩,
    (C5_listing_filters_and_titles ['d']
      ["note.txt".toList, "nodash.md".toList, "xx-1.md".toList,
       "100-a.md".toList]).1
      "xx-1.md".toList (by decide) (by decide)⟩

/-- C3 counterexample: the claim says that when the reloaded collection
is empty the selection "remains absent", but when a note was selected
and an empty collection arrives, the `len(msg) > 0` guard skips the
whole selection logic and the stale selection survives: here the
selection after the empty reload is still the old note, not `none`. -/
theorem C3_counterexample :
    (handleNotesMsg (fun _ => none)
        { initialModel with selectedNote := some (Note.mk ['a'] ['p'] 5) }
        []).selectedNote = some (Note.mk ['a'] ['p'] 5)
    ∧ some (Note.mk ['a'] ['p'] 5) ≠ (none : Option Note) := by
  constructor
  · decide
  · decide

/-- C3 (amended): when a reload delivers a non-empty collection, the
previously selected note is re-selected whenever some note in the new
collection shares its path (path equality, regardless of reordering),
and otherwise — no match, or nothing selected — the first (newest) note
becomes selected with its content loaded; when the collection is empty
the handler replaces the collection and leaves everything else,
including a present selection, unchanged (selection stays absent only
if it already was). -/
theorem C3_reload_selection (readF : GoStr → Option GoStr) (m : AppModel)
    (msg : List Note) :
    (m.selectedNote = none → ∀ first rest, sortNotes msg = first :: rest →
      (handleNotesMsg readF m msg).selectedNote = some first ∧
      (handleNotesMsg readF m msg).textareaValue = (readF first.path).getD [])
    ∧ (∀ sel, m.selectedNote = some sel → (∃ n ∈ msg, n.path = sel.path) →
      ∃ n', (handleNotesMsg readF m msg).selectedNote = some n' ∧
        n'.path = sel.path ∧ n' ∈ msg)
    ∧ (∀ sel, m.selectedNote = some sel → (∀ n ∈ msg, n.path ≠ sel.path) →
      ∀ first rest, sortNotes msg = first :: rest →
      (handleNotesMsg readF m msg).selectedNote = some first ∧
      (handleNotesMsg readF m msg).textareaValue = (readF first.path).getD [])
    ∧ (msg = [] →
      handleNotesMsg readF m msg = { m with notes := [], listItems := [] }) := by
  refine ⟨?_, ?_, ?_, ?_⟩
  · intro hsel first rest hs
    rcases handleNotesMsg_cons readF m msg first rest hs with ⟨h1, h2, _⟩
    rw [hsel] at h1 h2
    rw [reloadChoice_none] at h1 h2
    exact ⟨h1, h2⟩
  · intro sel hsel hex
    rcases hex with ⟨n, hn, hnp⟩
    have hmem : n ∈ sortNotes msg := ((sortNotes_perm msg).mem_iff).2 hn
    rcases hs : sortNotes msg with _ | ⟨first, rest⟩
    · rw [hs] at hmem
      exact absurd hmem (List.not_mem_nil n)
    rcases hf : findByPath (first :: rest) sel.path with _ | q
    · rw [findByPath_none_iff] at hf
      rw [hs] at hmem
      exact absurd hnp (hf n hmem)
    rcases handleNotesMsg_cons readF m msg first rest hs with ⟨h1, _, _⟩
    rw [hsel, reloadChoice_found (first :: rest) first sel q hf] at h1
    rcases findByPath_some_spec (first :: rest) sel.path q hf with ⟨hqm, hqp⟩
    rw [← hs] at hqm
    exact ⟨q.2, h1, hqp, ((sortNotes_perm msg).mem_iff).1 hqm⟩
  · intro sel hsel hno first rest hs
    have hf : findByPath (first :: rest) sel.path = none := by
      rw [findByPath_none_iff]
      intro n hn
      rw [← hs] at hn
      exact hno n (((sortNotes_perm msg).mem_iff).1 hn)
    rcases handleNotesMsg_cons readF m msg first rest hs with ⟨h1, h2, _⟩
    rw [hsel, reloadChoice_lost (first :: rest) first sel hf] at h1 h2
    exact ⟨h1, h2⟩
  · intro hmsg
    subst hmsg
    rfl

/-- Witness for C3: a concrete reload with a selected note whose path
survives in the new two-note collection re-selects that note. -/
theorem C3_witness :
    (({ initialModel with
        selectedNote := some (Note.mk ['a'] ['p'] 5) } : AppModel).selectedNote
      = some (Note.mk ['a'] ['p'] 5))
    ∧ (∃ n ∈ [Note.mk ['b'] ['q'] 9, Note.mk ['a'] ['p'] 5],
        n.path = (Note.mk ['a'] ['p'] 5).path)
    ∧ (∃ n', (handleNotesMsg (fun _ => none)
        { initialModel with selectedNote := some (Note.mk ['a'] ['p'] 5) }
        [Note.mk ['b'] ['q'] 9, Note.mk ['a'] ['p'] 5]).selectedNote = some n' ∧
        n'.path = (Note.mk ['a'] ['p'] 5).path ∧
        n' ∈ [Note.mk ['b'] ['q'] 9, Note.mk ['a'] ['p'] 5]) :=
  ⟨rfl, ⟨Note.mk ['a'] ['p'] 5, by decide, rfl⟩,
    (C3_reload_selection (fun _ => none)
      { initialModel with selectedNote := some (Note.mk ['a'] ['p'] 5) }
      [Note.mk ['b'] ['q'] 9, Note.mk ['a'] ['p'] 5]).2.1
      (Note.mk ['a'] ['p'] 5) rfl ⟨Note.mk ['a'] ['p'] 5, by decide, rfl⟩⟩

/-- C6 counterexample: the claimed file name `1700000000-Groceries---.md`
has three hyphens after "Groceries", but the title `"Groceries!!"` holds
only two characters that sanitize to `'-'`, so the save produces
`1700000000-Groceries--.md` and no file of the claimed name exists. -/
theorem C6_counterexample :
    saveNote ['d'] 1700000000 "Groceries!!".toList "milk, eggs".toList none []
      = [("1700000000-Groceries--.md".toList, "milk, eggs".toList)]
    ∧ readFile (saveNote ['d'] 1700000000 "Groceries!!".toList
        "milk, eggs".toList none []) "1700000000-Groceries---.md".toList = none
    ∧ "1700000000-Groceries--.md".toList ≠ "1700000000-Groceries---.md".toList := by
  refine ⟨by decide, by decide, by decide⟩

/-- C6 (amended): saving a new note titled "Groceries!!" with content
"milk, eggs" at time T=1700000000 produces exactly the file
`1700000000-Groceries--.md` (the two trailing `'!'` each mapped to
`'-'`) containing exactly `milk, eggs`. -/
theorem C6_groceries_scenario :
    saveNote ['d'] 1700000000 "Groceries!!".toList "milk, eggs".toList none []
      = [("1700000000-Groceries--.md".toList, "milk, eggs".toList)]
    ∧ readFile (saveNote ['d'] 1700000000 "Groceries!!".toList
        "milk, eggs".toList none []) "1700000000-Groceries--.md".toList
      = some "milk, eggs".toList := by
  refine ⟨by decide, by decide⟩


/-- C9: `sanitizeFileName` first strips one trailing `".md"` from its
input and only then applies the character map, so for every title
ending in `".md"` the sanitized name is the character map of the title
minus its last three characters — deviating from a rule that would map
characters only: on `"a.md"` sanitization yields `"a"` while the pure
character map would yield `"a-md"`. -/
theorem C9_sanitize_strips_md (title : GoStr) :
    (hasSuffix title mdExt = true →
      sanitizeFileName title = (title.take (title.length - 3)).map sanChar)
    ∧ sanitizeFileName "a.md".toList = ['a']
    ∧ "a.md".toList.map sanChar = "a-md".toList
    ∧ sanitizeFileName "a.md".toList ≠ "a.md".toList.map sanChar := by
  refine ⟨?_, by decide, by decide, by decide⟩
  intro h
  unfold sanitizeFileName trimSuffix
  rw [if_pos h]
  rfl

/-- Witness for C9: the title `"b.md"` ends in `".md"` and sanitizes to
the character map of `"b"`. -/
theorem C9_witness :
    hasSuffix "b.md".toList mdExt = true ∧
    sanitizeFileName "b.md".toList
      = ("b.md".toList.take ("b.md".toList.length - 3)).map sanChar :=
  ⟨by decide, (C9_sanitize_strips_md "b.md".toList).1 (by decide)⟩

/-- C10: `initialModel` configures the title input with a 50-character
limit (and focuses it), and under the input collaborator's limit
enforcement every sequence of typed characters starting from the empty
(reset) value leaves the title at most 50 characters long — so every
title typed through the UI is at most 50 characters before
sanitization. -/
theorem C10_title_char_limit :
    initialModel.textInputCharLimit = 50
    ∧ initialModel.textInputFocused = true
    ∧ ∀ cs : List Char,
        (cs.foldl (textInputTypeChar initialModel.textInputCharLimit) []).length
          ≤ 50 := by
  refine ⟨rfl, rfl, ?_⟩
  have key : ∀ (cs : List Char) (v : GoStr), v.length ≤ 50 →
      (cs.foldl (textInputTypeChar 50) v).length ≤ 50 := by
    intro cs
    induction cs with
    | nil =>
      intro v h
      exact h
    | cons c cs ih =>
      intro v h
      rw [List.foldl_cons]
      apply ih
      unfold textInputTypeChar
      by_cases hc : 0 < 50 ∧ 50 ≤ v.length
      · rw [if_pos hc]
        exact h
      · rw [if_neg hc]
        rw [List.length_append]
        have hv : v.length < 50 := by
          rcases Nat.lt_or_ge v.length 50 with hlt | hge
          · exact hlt
          · exact absurd ⟨by omega, hge⟩ hc
        simp only [List.length_singleton]
        omega
  intro cs
  exact key cs [] (by simp)

/-- C2: creating a new note (save with no existing note) at time `now`
and then listing yields exactly one note at the saved path; its title
is the sanitized-then-restored input title (every `'-'` of the
sanitized form restored to a space — lossy for titles containing
hyphens), its `createdAt` is `now`, and its file content equals the
input content. -/
theorem C2_create_then_list (dir title content : GoStr) (now : Int) (fs : Fs)
    (htitle : title ≠ [])
    (h0 : 0 ≤ now) (hrange : now ≤ 2 ^ 63 - 1)
    (hnodup : (fs.map Prod.fst).Nodup) :
    (listNotes dir (saveNote dir now title content none fs)).countP
        (fun nt => nt.path = joinPath dir (saveName (intToStr now) title)) = 1
    ∧ ∀ nt ∈ listNotes dir (saveNote dir now title content none fs),
        nt.path = joinPath dir (saveName (intToStr now) title) →
        nt.title = restoreTitle (sanitizeFileName title)
        ∧ nt.createdAt = now
        ∧ readFileAt (saveNote dir now title content none fs) nt.path
            = some content := by
  have hsave : saveNote dir now title content none fs
      = writeFile fs (saveName (intToStr now) title) content := rfl
  have hdigits : ∀ c ∈ intToStr now, c.isDigit = true := mem_intToStr_isDigit now h0
  have hndash : ∀ c ∈ intToStr now, c ≠ '-' :=
    fun c hc => isDigit_ne c '-' (hdigits c hc) (by decide)
  have hnslash : '/' ∉ saveName (intToStr now) title :=
    slash_not_mem_saveName (intToStr now) title
      (fun c hc => isDigit_ne c '/' (hdigits c hc) (by decide))
  have hparse : parseNoteFile dir (saveName (intToStr now) title)
      = some (Note.mk (restoreTitle (sanitizeFileName title))
          (joinPath dir (saveName (intToStr now) title)) now) :=
    parseNoteFile_saveName dir (intToStr now) title now hndash
      (parseInt64_intToStr now h0 hrange)
  constructor
  · show (loadNotes dir (readDir (saveNote dir now title content none fs))).countP
        (fun nt => nt.path = joinPath dir (saveName (intToStr now) title)) = 1
    rw [countP_loadNotes_target dir (saveName (intToStr now) title) _ hparse]
    rw [hsave]
    exact countP_map_fst_writeFile_self fs (saveName (intToStr now) title)
      content hnodup
  · intro nt hnt hpath
    rcases (mem_loadNotes dir _ nt).1 hnt with ⟨name2, _, hp2⟩
    have hp2path := parseNoteFile_path dir name2 nt hp2
    rw [hp2path] at hpath
    have hn2 := joinPath_inj dir name2 (saveName (intToStr now) title) hpath
    rw [hn2] at hp2
    rw [hparse] at hp2
    have hnt2 := Option.some.inj hp2
    refine ⟨?_, ?_, ?_⟩
    · rw [← hnt2]
    · rw [← hnt2]
    · rw [hp2path, hn2]
      unfold readFileAt
      rw [baseName_joinPath dir _ hnslash, hsave]
      exact readFile_writeFile_self fs _ content

/-- Witness for C2: saving the one-letter title `"a"` with content
`"x"` at time 100 into an empty directory and listing yields exactly
one note at the saved path. -/
theorem C2_witness :
    ((['a'] : GoStr) ≠ [] ∧ (0 : Int) ≤ 100 ∧ (100 : Int) ≤ 2 ^ 63 - 1 ∧
      ((([] : Fs)).map Prod.fst).Nodup)
    ∧ (listNotes ['d'] (saveNote ['d'] 100 ['a'] ['x'] none [])).countP
        (fun nt => nt.path = joinPath ['d'] (saveName (intToStr 100) ['a'])) = 1 :=
  ⟨⟨by decide, by decide, by decide, by decide⟩,
    (C2_create_then_list ['d'] ['a'] ['x'] 100 [] (by decide) (by decide)
      (by decide) (by decide)).1⟩


theorem navTextarea_none (readF : GoStr → Option GoStr) (old : GoStr) (n : Note)
    (h : readF n.path = none) : navTextarea readF old n = old := by
  unfold navTextarea
  rw [h]

/-- C1: saving through the edit path reuses the timestamp string
extracted textually from the existing filename: the save rewrites the
directory to hold, in place of the old file, exactly one file named
`<old timestamp>-<fresh sanitized title>.md` holding the new content;
the new file parses back with the identical `createdAt`; the old name
is gone whenever the name changed; and when the title is unchanged on a
note whose filename the save path itself produced, the name is
identical and the file count does not change — a content-only edit
never creates a second file. -/
theorem C1_edit_preserves_createdAt (dir : GoStr) (now : Int)
    (title content : GoStr) (n : Note) (fs : Fs) (name tsStr rest : GoStr)
    (hparse : parseNoteFile dir name = some n)
    (hsplit : splitN2 name = [tsStr, rest])
    (hslash : '/' ∉ name)
    (hnodup : (fs.map Prod.fst).Nodup) :
    (saveNote dir now title content (some n) fs
        = writeFile (removeFile fs name) (saveName tsStr title) content)
    ∧ (∃ nn, parseNoteFile dir (saveName tsStr title) = some nn ∧
        nn.createdAt = n.createdAt ∧
        nn.title = restoreTitle (sanitizeFileName title))
    ∧ readFile (saveNote dir now title content (some n) fs)
        (saveName tsStr title) = some content
    ∧ ((saveNote dir now title content (some n) fs).map Prod.fst).countP
        (fun x => x = saveName tsStr title) = 1
    ∧ (saveName tsStr title ≠ name →
        readFile (saveNote dir now title content (some n) fs) name = none)
    ∧ (title = n.title → (∃ t0, rest = sanitizeFileName t0 ++ mdExt) →
        saveName tsStr title = name
        ∧ (name ∈ fs.map Prod.fst →
          (saveNote dir now title content (some n) fs).length = fs.length)) := by
  rcases parseNoteFile_some_spec dir name n hparse with
    ⟨hsuf, tsStr2, rest2, hsplit2, hts2, htitle2, hpath2⟩
  rw [hsplit] at hsplit2
  rcases List.cons.inj hsplit2 with ⟨hts_eq, htail⟩
  rcases List.cons.inj htail with ⟨hrest_eq, _⟩
  subst hts_eq
  subst hrest_eq
  have hbase : baseName n.path = name := by
    rw [hpath2]
    exact baseName_joinPath dir name hslash
  have hsave : saveNote dir now title content (some n) fs
      = writeFile (removeFile fs name) (saveName tsStr title) content := by
    show writeFile (removeFile fs (baseName n.path))
        (((splitN2 (baseName n.path)).headD []) ++ '-'
          :: (sanitizeFileName title ++ mdExt)) content = _
    rw [hbase, hsplit]
    rfl
  have hts_nodash : ∀ c ∈ tsStr, c ≠ '-' :=
    splitN2_no_dash_first name tsStr rest hsplit
  refine ⟨hsave, ?_, ?_, ?_, ?_, ?_⟩
  · refine ⟨Note.mk (restoreTitle (sanitizeFileName title))
      (joinPath dir (saveName tsStr title)) n.createdAt, ?_, rfl, rfl⟩
    exact parseNoteFile_saveName dir tsStr title n.createdAt hts_nodash hts2
  · rw [hsave]
    exact readFile_writeFile_self _ _ content
  · rw [hsave]
    exact countP_map_fst_writeFile_self _ _ content
      (nodup_map_fst_removeFile fs name hnodup)
  · intro hne
    rw [hsave]
    rw [readFile_writeFile_ne _ _ name content (fun h => hne h.symm)]
    exact readFile_removeFile_self fs name
  · intro hteq hrest
    rcases hrest with ⟨t0, ht0⟩
    have hsan : sanitizeFileName title = sanitizeFileName t0 := by
      rw [hteq, htitle2, ht0, trimSuffix_append]
      exact sanitize_restore_sanitize t0
    have hname_eq : saveName tsStr title = name := by
      unfold saveName
      rw [hsan, ← ht0]
      exact (splitN2_recover name tsStr rest hsplit).symm
    refine ⟨hname_eq, ?_⟩
    intro hmem
    rw [hsave, hname_eq]
    rw [length_writeFile_of_not_mem _ name content
      (not_mem_map_fst_removeFile fs name)]
    exact length_removeFile_add_one fs name hnodup hmem

/-- Witness for C1: editing the note stored as `100-a.md` with its own
title `"a"` and new content `"y"` rewrites the same file in place: the
file still parses with `createdAt = 100`, holds the new content, and
the directory still holds exactly one file. -/
theorem C1_witness :
    (parseNoteFile ['d'] "100-a.md".toList
        = some (Note.mk ['a'] "d/100-a.md".toList 100)
      ∧ splitN2 "100-a.md".toList = ["100".toList, "a.md".toList]
      ∧ '/' ∉ "100-a.md".toList
      ∧ (([("100-a.md".toList, ['x'])] : Fs).map Prod.fst).Nodup)
    ∧ readFile (saveNote ['d'] 999 ['a'] ['y']
        (some (Note.mk ['a'] "d/100-a.md".toList 100))
        [("100-a.md".toList, ['x'])]) (saveName "100".toList ['a'])
        = some ['y']
    ∧ ((saveNote ['d'] 999 ['a'] ['y']
        (some (Note.mk ['a'] "d/100-a.md".toList 100))
        [("100-a.md".toList, ['x'])]).map Prod.fst).countP
        (fun x => x = saveName "100".toList ['a']) = 1 :=
  ⟨⟨by decide, by decide, by decide, by decide⟩,
    (C1_edit_preserves_createdAt ['d'] 999 ['a'] ['y']
      (Note.mk ['a'] "d/100-a.md".toList 100) [("100-a.md".toList, ['x'])]
      "100-a.md".toList "100".toList "a.md".toList
      (by decide) (by decide) (by decide) (by decide)).2.2.1,
    (C1_edit_preserves_createdAt ['d'] 999 ['a'] ['y']
      (Note.mk ['a'] "d/100-a.md".toList 100) [("100-a.md".toList, ['x'])]
      "100-a.md".toList "100".toList "a.md".toList
      (by decide) (by decide) (by decide) (by decide)).2.2.2.1⟩

/-- C7 counterexample: the delete key's guard checks only that a note
is selected, not that the state machine is in `list` mode: in `edit`
mode with a selected note, the delete key still issues the delete
command — contradicting the claim that deletion happens only in `list`
mode. -/
theorem C7_counterexample :
    ({ initialModel with
        mode := "edit",
        selectedNote := some (Note.mk ['a'] "d/100-a.md".toList 100) }
      : AppModel).mode ≠ "list"
    ∧ handleKey (fun _ => none)
        { initialModel with
          mode := "edit",
          selectedNote := some (Note.mk ['a'] "d/100-a.md".toList 100) }
        Key.ctrlD
      = ({ initialModel with
          mode := "edit",
          selectedNote := some (Note.mk ['a'] "d/100-a.md".toList 100) },
         [Cmd.deleteCmd "d/100-a.md".toList, Cmd.loadNotesCmd]) := by
  refine ⟨by decide, by decide⟩

/-- C7 (amended): whenever a note is selected — in any mode, not only
`list` — the delete key issues the delete command on its path followed
by an asynchronous reload, and is a no-op when nothing is selected; the
delete removes the note's file, and the subsequent listing contains no
note with that path. -/
theorem C7_delete_selected (readF : GoStr → Option GoStr) (m : AppModel)
    (fs : Fs) (dir name : GoStr) (n : Note) :
    (m.selectedNote = some n →
      handleKey readF m Key.ctrlD
        = (m, [Cmd.deleteCmd n.path, Cmd.loadNotesCmd]))
    ∧ (m.selectedNote = none → handleKey readF m Key.ctrlD = (m, []))
    ∧ (parseNoteFile dir name = some n → '/' ∉ name →
      readFile (deleteNote fs n.path) name = none
      ∧ ∀ nt ∈ listNotes dir (deleteNote fs n.path), nt.path ≠ n.path) := by
  refine ⟨?_, ?_, ?_⟩
  · intro hsel
    unfold handleKey
    rw [hsel]
  · intro hsel
    unfold handleKey
    rw [hsel]
  · intro hparse hslash
    have hpath := parseNoteFile_path dir name n hparse
    have hdel : deleteNote fs n.path = removeFile fs name := by
      unfold deleteNote
      rw [hpath, baseName_joinPath dir name hslash]
    constructor
    · rw [hdel]
      exact readFile_removeFile_self fs name
    · intro nt hnt hpeq
      rcases (mem_loadNotes dir _ nt).1 hnt with ⟨name2, hmem2, hp2⟩
      have := parseNoteFile_path dir name2 nt hp2
      rw [this, hpath] at hpeq
      have hn2 := joinPath_inj dir name2 name hpeq
      rw [hdel, hn2] at hmem2
      exact not_mem_map_fst_removeFile fs name hmem2

/-- Witness for C7: with the note stored as `100-a.md` selected, the
delete key issues the delete and reload commands, and after the delete
the listing of the one-file directory has no note at that path. -/
theorem C7_witness :
    (({ initialModel with
        selectedNote := some (Note.mk ['a'] "d/100-a.md".toList 100) }
        : AppModel).selectedNote
      = some (Note.mk ['a'] "d/100-a.md".toList 100))
    ∧ handleKey (fun _ => none)
        { initialModel with
          selectedNote := some (Note.mk ['a'] "d/100-a.md".toList 100) }
        Key.ctrlD
      = ({ initialModel with
          selectedNote := some (Note.mk ['a'] "d/100-a.md".toList 100) },
         [Cmd.deleteCmd "d/100-a.md".toList, Cmd.loadNotesCmd])
    ∧ readFile (deleteNote [("100-a.md".toList, ['x'])]
        (Note.mk ['a'] "d/100-a.md".toList 100).path) "100-a.md".toList
      = none :=
  ⟨rfl,
    (C7_delete_selected (fun _ => none)
      { initialModel with
        selectedNote := some (Note.mk ['a'] "d/100-a.md".toList 100) }
      [("100-a.md".toList, ['x'])] ['d'] "100-a.md".toList
      (Note.mk ['a'] "d/100-a.md".toList 100)).1 rfl,
    ((C7_delete_selected (fun _ => none)
      { initialModel with
        selectedNote := some (Note.mk ['a'] "d/100-a.md".toList 100) }
      [("100-a.md".toList, ['x'])] ['d'] "100-a.md".toList
      (Note.mk ['a'] "d/100-a.md".toList 100)).2.2 (by decide) (by decide)).1⟩

/-- C8 counterexample: during up/down navigation a failed content read
does not clear the content field: with the selected note's file
unreadable, the textarea keeps its previous value `"old"` instead of
being set to the empty string as the claim demands. -/
theorem C8_counterexample :
    (handleKey (fun _ => none)
        { initialModel with
          mode := "list",
          listItems := [Note.mk ['a'] "d/100-a.md".toList 100],
          listIndex := 0,
          selectedNote := some (Note.mk ['a'] "d/100-a.md".toList 100),
          textareaValue := "old".toList }
        Key.down).1.textareaValue = "old".toList
    ∧ "old".toList ≠ ([] : GoStr) := by
  refine ⟨by decide, by decide⟩

/-- C8 (amended): when the selected note's backing file cannot be read,
the enter key (in `list` mode) and the edit key silently set the
content field to the empty string, while up/down navigation leaves the
content field unchanged (it sets the textarea only when the read
succeeds); no error is surfaced in any of the three paths. -/
theorem C8_read_failure_handling (readF : GoStr → Option GoStr)
    (m : AppModel) (n : Note) (k : Key) :
    (m.mode = "list" → selectedItem m = some n → readF n.path = none →
      (handleKey readF m Key.enter).1.textareaValue = []
      ∧ (handleKey readF m Key.enter).1.selectedNote = some n)
    ∧ (m.selectedNote = some n → readF n.path = none →
      (handleKey readF m Key.ctrlE).1.textareaValue = []
      ∧ (handleKey readF m Key.ctrlE).1.mode = "edit")
    ∧ ((k = Key.up ∨ k = Key.down) → m.mode = "list" →
      m.listItems.get? (listMove m.listItems.length m.listIndex k) = some n →
      readF n.path = none →
      (handleKey readF m k).1.textareaValue = m.textareaValue
      ∧ (handleKey readF m k).1.selectedNote = some n) := by
  refine ⟨?_, ?_, ?_⟩
  · intro hmode hitem hread
    unfold handleKey
    rw [if_pos hmode, hitem]
    refine ⟨?_, ?_⟩
    · show (readF n.path).getD [] = []
      rw [hread]
      rfl
    · rfl
  · intro hsel hread
    unfold handleKey
    rw [hsel]
    refine ⟨?_, ?_⟩
    · show (readF n.path).getD [] = []
      rw [hread]
      rfl
    · rfl
  · intro hk hmode hget hread
    have hupdown : handleKey readF m k = handleUpDown readF m k := by
      rcases hk with rfl | rfl
      · rfl
      · rfl
    rw [hupdown]
    unfold handleUpDown
    rw [if_pos hmode, hget]
    refine ⟨?_, ?_⟩
    · show navTextarea readF m.textareaValue n = m.textareaValue
      exact navTextarea_none readF m.textareaValue n hread
    · rfl

/-- Witness for C8: pressing enter in `list` mode on a note whose file
is unreadable sets the content field to the empty string. -/
theorem C8_witness :
    (({ initialModel with
        mode := "list",
        listItems := [Note.mk ['a'] "d/100-a.md".toList 100],
        listIndex := 0,
        textareaValue := "old".toList } : AppModel).mode
      = "list")
    ∧ selectedItem
        { initialModel with
          mode := "list",
          listItems := [Note.mk ['a'] "d/100-a.md".toList 100],
          listIndex := 0,
          textareaValue := "old".toList }
      = some (Note.mk ['a'] "d/100-a.md".toList 100)
    ∧ ((fun _ => none : GoStr → Option GoStr)
        (Note.mk ['a'] "d/100-a.md".toList 100).path = none)
    ∧ (handleKey (fun _ => none)
        { initialModel with
          mode := "list",
          listItems := [Note.mk ['a'] "d/100-a.md".toList 100],
          listIndex := 0,
          textareaValue := "old".toList }
        Key.enter).1.textareaValue = [] :=
  ⟨rfl, rfl, rfl,
    ((C8_read_failure_handling (fun _ => none)
      { initialModel with
        mode := "list",
        listItems := [Note.mk ['a'] "d/100-a.md".toList 100],
        listIndex := 0,
        textareaValue := "old".toList }
      (Note.mk ['a'] "d/100-a.md".toList 100) Key.enter).1
      rfl rfl rfl).1⟩


end Gleaner
